import Mathlib

/-!
# Verification of the capacity-tracking filesystem decorator

A shallow embedding of the `capacityfs` Go package: a decorator that
enforces a total-byte-size budget over a wrapped filesystem.

Two layers are modelled:

* `Capacityfs.A` — the single-operation layer.  Each decorator operation
  (`fileSize.Write`, `fileSize.WriteAt`, `fileSize.Truncate`,
  `capacityFs.statAndCheckSize`, `capacityFs.Create`, `capacityFs.Mkdir`,
  `capacityFs.beforeRemove`, `capacityFs.Remove`, `capacityFs.RemoveAll`,
  `NewCapacityFs`) is translated with the results of the underlying
  (wrapped) store passed in as explicit parameters, since the underlying
  store is an opaque collaborator.
* `Capacityfs.M` — a whole-system machine: a concrete model of an
  underlying hierarchical store (an association list from paths to sized
  entries, with POSIX-like create/mkdir/remove semantics) together with
  the decorator's cached counter, and a small-step runner for sequences
  of decorator operations.

Mutex locking (`sync.RWMutex`) is not modelled: every operation is
executed atomically on the caller's thread, which matches the spec's
sequential ("no concurrent mutation in flight") reading.
-/

namespace Capacityfs

/-- Errors a decorator operation can surface.  `notEnoughCapacity` is the
sentinel `ErrNotEnoughCapacity`; `underlying n` stands for a distinct
error value produced by the wrapped store or by `fmt.Errorf` (the code
`n` only serves to keep distinct errors distinguishable). -/
inductive Err where
  | notEnoughCapacity
  | underlying (code : Nat)
deriving DecidableEq, Repr

namespace A

/-- The capacity counters of a `capacityFs` value: the immutable
`limitedSize` and the mutable `cachedSize` (the mutex field is not
modelled; see the file header). -/
structure Cap where
  limitedSize : Int
  cachedSize : Int
deriving DecidableEq, Repr

/-- `capacityFs.hasEnoughCapacity`: `(size + a.cachedSize) <= a.limitedSize`. -/
def hasEnoughCapacity (a : Cap) (size : Int) : Bool :=
  size + a.cachedSize ≤ a.limitedSize

/-- `capacityFs.addCapacity`: `a.cachedSize += size`. -/
def addCapacity (a : Cap) (size : Int) : Cap :=
  { a with cachedSize := a.cachedSize + size }

/-- `fileSize.Write`.  `pLen` is `len(p)`; `under` is the pair
`(n, err)` the underlying `File.Write` would return.  The result is the
updated counters, the returned byte count and the returned error. -/
def fileSizeWrite (a : Cap) (pLen : Nat) (under : Nat × Option Err) :
    Cap × Nat × Option Err :=
  if !(hasEnoughCapacity a (pLen : Int)) then (a, 0, some .notEnoughCapacity)
  else (addCapacity a (under.1 : Int), under.1, under.2)

/-- `fileSize.WriteAt`.  Identical to `fileSizeWrite` except that the
offset `off` is passed to the underlying `File.WriteAt`; `under` is that
call's result. -/
def fileSizeWriteAt (a : Cap) (pLen : Nat) (off : Int) (under : Nat × Option Err) :
    Cap × Nat × Option Err :=
  if !(hasEnoughCapacity a (pLen : Int)) then (a, 0, some .notEnoughCapacity)
  else (addCapacity a (under.1 : Int), under.1, under.2)

/-- `fileSize.Truncate`: delegate first (`underErr` is the underlying
`File.Truncate` result), then on success `addCapacity(size * -1)`. -/
def fileSizeTruncate (a : Cap) (size : Int) (underErr : Option Err) :
    Cap × Option Err :=
  match underErr with
  | some e => (a, some e)
  | none => (addCapacity a (-size), none)

/-- `capacityFs.statAndCheckSize`.  `statSize` is `none` when the
underlying `Stat` fails (the code then returns `nil` untouched), and
`some size` when it succeeds. -/
def statAndCheckSize (a : Cap) (statSize : Option Int) : Cap × Option Err :=
  match statSize with
  | some size =>
      if !(hasEnoughCapacity a size) then (a, some .notEnoughCapacity)
      else (addCapacity a size, none)
  | none => (a, none)

/-- Observable outcome of `capacityFs.Create`: the counters afterwards,
whether a (wrapped) file value is returned, the returned error, and
whether a compensating `a.Fs.Remove(name)` was issued. -/
structure CreateResult where
  cap : Cap
  fileReturned : Bool
  err : Option Err
  compensatingRemove : Bool
deriving DecidableEq, Repr

/-- `capacityFs.Create`.  `underCreate` is the underlying `Fs.Create`
error (or `none` on success); `statSize` as in `statAndCheckSize`;
`removeErr` is the error the compensating `Fs.Remove` would return —
the Go code discards it, and correspondingly it is never consumed. -/
def Create (a : Cap) (underCreate : Option Err) (statSize : Option Int)
    (removeErr : Option Err) : CreateResult :=
  match underCreate with
  | some e => ⟨a, false, some e, false⟩
  | none =>
      let r := statAndCheckSize a statSize
      match r.2 with
      | some e => ⟨r.1, true, some e, true⟩
      | none => ⟨r.1, true, none, false⟩

/-- Observable outcome of `capacityFs.Mkdir`. -/
structure MkdirResult where
  cap : Cap
  err : Option Err
  compensatingRemove : Bool
deriving DecidableEq, Repr

/-- `capacityFs.Mkdir`, with the same parameter conventions as `Create`. -/
def Mkdir (a : Cap) (underMkdir : Option Err) (statSize : Option Int)
    (removeErr : Option Err) : MkdirResult :=
  match underMkdir with
  | some e => ⟨a, some e, false⟩
  | none =>
      let r := statAndCheckSize a statSize
      match r.2 with
      | some e => ⟨r.1, some e, true⟩
      | none => ⟨r.1, none, false⟩

/-- `capacityFs.beforeRemove`.  `statRes` is `none` when the underlying
`Stat` fails, else `some (isDir, size)`.  `scan` is the pair
`(size, err)` that `CalculateSizeSum` over the subtree would return
(the partial sum accompanies the error, exactly as in Go).  Returns the
size to free and the error. -/
def beforeRemove (statRes : Option (Bool × Int)) (scan : Int × Option Err) :
    Int × Option Err :=
  match statRes with
  | none => (0, none)
  | some (d, sz) => if d then scan else (sz, none)

/-- `capacityFs.Remove`: compute `beforeRemove`, propagate its error,
else delegate (`underErr` is the underlying `Fs.Remove` result), and on
success `addCapacity(size * -1)`. -/
def Remove (a : Cap) (statRes : Option (Bool × Int)) (scan : Int × Option Err)
    (underErr : Option Err) : Cap × Option Err :=
  match beforeRemove statRes scan with
  | (_, some e) => (a, some e)
  | (size, none) =>
      match underErr with
      | some e => (a, some e)
      | none => (addCapacity a (-size), none)

/-- `capacityFs.RemoveAll`: same shape as `Remove`, delegating to the
underlying `Fs.RemoveAll` instead. -/
def RemoveAll (a : Cap) (statRes : Option (Bool × Int)) (scan : Int × Option Err)
    (underErr : Option Err) : Cap × Option Err :=
  match beforeRemove statRes scan with
  | (_, some e) => (a, some e)
  | (size, none) =>
      match underErr with
      | some e => (a, some e)
      | none => (addCapacity a (-size), none)

/-- `NewCapacityFs`.  `fIsNil` marks a nil wrapped-filesystem argument;
`size` is the requested limit; `scan` is the `CalculateSizeSum` result
over the wrapped tree.  Error codes: 10 = "nil interface",
11 = "size less than 0"; the over-budget error wraps
`ErrNotEnoughCapacity` (`%w`), modelled as the sentinel itself. -/
def NewCapacityFs (fIsNil : Bool) (size : Int) (scan : Int × Option Err) :
    Except Err Cap :=
  if fIsNil then .error (.underlying 10)
  else if size < 0 then .error (.underlying 11)
  else
    match scan with
    | (_, some e) => .error e
    | (cachedSize, none) =>
        if cachedSize > size then .error .notEnoughCapacity
        else .ok ⟨size, cachedSize⟩

end A

namespace M

/-- A path in the managed tree, as its list of `/`-separated components
(the root is `[]`).  The Go code manipulates paths as strings; the
correspondence between the string form and the component form is proved
with `possibleCombinations` below. -/
abbrev Path := List String

/-- One entry of the underlying store: its directory flag and its
declared (`Stat`) size.  Sizes of real entries are non-negative, hence
`Nat`. -/
structure Entry where
  isDir : Bool
  size : Nat
deriving DecidableEq, Repr

/-- The underlying store's content: an association list from paths to
entries (first match wins, as in a map with unique keys). -/
abbrev Tree := List (Path × Entry)

/-- `Stat` on the model store: the first entry registered at `p`. -/
def findEntry : Tree → Path → Option Entry
  | [], _ => none
  | (q, e) :: rest, p => if q = p then some e else findEntry rest p

/-- The sum of the declared sizes of every entry — what a full `Walk`
of the store adds up. -/
def sumTree (t : Tree) : Nat := (t.map (fun pe => pe.2.size)).sum

/-- `CalculateSizeSum` on the model store.  A walk over the model never
fails (every listed entry can be statted), so the error component of the
Go function is absent here; its failure branch is exercised by the
parameter-level model `A.beforeRemove` / `A.NewCapacityFs`. -/
def CalculateSizeSum (t : Tree) : Nat := sumTree t

/-- The paths registered in the store. -/
def keys (t : Tree) : List Path := t.map Prod.fst

/-- `CalculateSizeSum(afero.NewBasePathFs(fs, p))`: the walk of the
subtree rooted at `p` sums every entry whose path extends `p`,
including `p` itself. -/
def subtreeSum (t : Tree) (p : Path) : Nat :=
  sumTree (t.filter (fun pe => p.isPrefixOf pe.1))

/-- Does some entry lie strictly below `p`? -/
def hasStrictExtension (t : Tree) (p : Path) : Bool :=
  t.any (fun pe => p.isPrefixOf pe.1 && !(pe.1 == p))

/-- The paths registered as directories. -/
def dirKeys (t : Tree) : List Path :=
  (t.filter (fun pe => pe.2.isDir)).map Prod.fst

/-- Replace the size of the first entry registered at `p`. -/
def updateSize : Tree → Path → (Nat → Nat) → Tree
  | [], _, _ => []
  | (q, e) :: rest, p, f =>
      if q = p then (q, ⟨e.isDir, f e.size⟩) :: rest
      else (q, e) :: updateSize rest p f

/-- The directory overhead the underlying store reports for a freshly
created directory (42 bytes in `afero.MemMapFs`, the store the package's
tests run against). -/
def dirSize : Nat := 42

/-- Can an entry be created at `p`?  POSIX-like: `p` is not the root and
its parent is a directory already present in the store. -/
def parentOk (t : Tree) (p : Path) : Bool :=
  !p.isEmpty &&
    match findEntry t p.dropLast with
    | some e => e.isDir
    | none => false

/-- Underlying `Fs.Create`: fails on an existing path or a missing/
non-directory parent, else registers an empty file. -/
def underCreate (t : Tree) (p : Path) : Except Err Tree :=
  match findEntry t p with
  | some _ => .error (.underlying 20)
  | none =>
      if parentOk t p then .ok ((p, ⟨false, 0⟩) :: t)
      else .error (.underlying 21)

/-- Underlying `Fs.Mkdir`: like `underCreate`, registering a directory
of size `dirSize`. -/
def underMkdir (t : Tree) (p : Path) : Except Err Tree :=
  match findEntry t p with
  | some _ => .error (.underlying 22)
  | none =>
      if parentOk t p then .ok ((p, ⟨true, dirSize⟩) :: t)
      else .error (.underlying 23)

/-- Underlying `File.Write`/`File.WriteAt` on the file at `p`: grows the
file by `g` bytes (`g` is the net growth the store performs, which for a
plain append equals the byte count written). -/
def underWrite (t : Tree) (p : Path) (g : Nat) : Except Err Tree :=
  match findEntry t p with
  | some e =>
      if e.isDir then .error (.underlying 24)
      else .ok (updateSize t p (fun s => s + g))
  | none => .error (.underlying 25)

/-- Underlying `File.Truncate`: sets the file's size to `s`. -/
def underTruncate (t : Tree) (p : Path) (s : Nat) : Except Err Tree :=
  match findEntry t p with
  | some e =>
      if e.isDir then .error (.underlying 26)
      else .ok (updateSize t p (fun _ => s))
  | none => .error (.underlying 27)

/-- Underlying `Fs.Remove`: fails on a missing path or a non-empty
directory, else deletes the entry. -/
def underRemove (t : Tree) (p : Path) : Except Err Tree :=
  match findEntry t p with
  | none => .error (.underlying 28)
  | some e =>
      if e.isDir && hasStrictExtension t p then .error (.underlying 29)
      else .ok (t.filter (fun pe => !(pe.1 == p)))

/-- Underlying `Fs.RemoveAll`: deletes the whole subtree below `p`
(including `p`); never fails, matching `os.RemoveAll` semantics. -/
def underRemoveAll (t : Tree) (p : Path) : Tree :=
  t.filter (fun pe => !(p.isPrefixOf pe.1))

/-- A `capacityFs` value over the model store: the wrapped tree plus the
two counters (the mutex is not modelled; see the file header). -/
structure FsState where
  tree : Tree
  limitedSize : Int
  cachedSize : Int
deriving DecidableEq, Repr

/-- `capacityFs.hasEnoughCapacity` over the machine state. -/
def hasEnoughCapacity (a : FsState) (size : Int) : Bool :=
  size + a.cachedSize ≤ a.limitedSize

/-- `capacityFs.addCapacity` over the machine state. -/
def addCapacity (a : FsState) (size : Int) : FsState :=
  { a with cachedSize := a.cachedSize + size }

/-- `capacityFs.statAndCheckSize` over the machine state (the stat of a
registered path always succeeds in the model). -/
def statAndCheckSize (a : FsState) (p : Path) : FsState × Option Err :=
  match findEntry a.tree p with
  | some e =>
      if !(hasEnoughCapacity a (e.size : Int)) then (a, some .notEnoughCapacity)
      else (addCapacity a (e.size : Int), none)
  | none => (a, none)

/-- `capacityFs.Create` over the machine state.  The returned file
handle is not part of the machine state; success is `err = none`.  The
compensating `a.Fs.Remove(name)` on a capacity failure is applied to the
tree and its own error discarded, as in the source. -/
def Create (a : FsState) (p : Path) : FsState × Option Err :=
  match underCreate a.tree p with
  | .error e => (a, some e)
  | .ok t' =>
      let a1 : FsState := { a with tree := t' }
      match statAndCheckSize a1 p with
      | (a2, some e) =>
          match underRemove a2.tree p with
          | .ok t2 => ({ a2 with tree := t2 }, some e)
          | .error _ => (a2, some e)
      | (a2, none) => (a2, none)

/-- `capacityFs.Mkdir` over the machine state. -/
def Mkdir (a : FsState) (p : Path) : FsState × Option Err :=
  match underMkdir a.tree p with
  | .error e => (a, some e)
  | .ok t' =>
      let a1 : FsState := { a with tree := t' }
      match statAndCheckSize a1 p with
      | (a2, some e) =>
          match underRemove a2.tree p with
          | .ok t2 => ({ a2 with tree := t2 }, some e)
          | .error _ => (a2, some e)
      | (a2, none) => (a2, none)

/-- `possibleCombinations`, exactly as in the source: the `k`-th element
joins the first `k+1` components with `/`. -/
def possibleCombinations (str : List String) : List String :=
  (List.range str.length).map (fun k => String.intercalate "/" (str.take (k + 1)))

/-- The component-level counterpart of `possibleCombinations`: the
ordered list of non-empty prefixes of the component list. -/
def prefixLists (l : List String) : List Path :=
  (List.range l.length).map (fun k => l.take (k + 1))

/-- The loop body of `capacityFs.MkdirAll`: for each prefix in order,
skip it when the underlying `Stat` succeeds, otherwise call this
filesystem's own `Mkdir` and stop at the first failure. -/
def MkdirAllGo : FsState → List Path → FsState × Option Err
  | a, [] => (a, none)
  | a, v :: rest =>
      match findEntry a.tree v with
      | some _ => MkdirAllGo a rest
      | none =>
          match Mkdir a v with
          | (a', some e) => (a', some e)
          | (a', none) => MkdirAllGo a' rest

/-- `capacityFs.MkdirAll` over the machine state, the path given as its
component list (`possibleCombinations` of the string path corresponds
componentwise to `prefixLists`, proved below). -/
def MkdirAll (a : FsState) (l : List String) : FsState × Option Err :=
  MkdirAllGo a (prefixLists l)

/-- `capacityFs.Open` / `capacityFs.OpenFile` over the machine state:
no capacity interaction, the state is unchanged either way. -/
def OpenOp (a : FsState) (p : Path) : FsState × Option Err :=
  match findEntry a.tree p with
  | some _ => (a, none)
  | none => (a, some (.underlying 30))

/-- `capacityFs.beforeRemove` over the machine state: the statted size
for a file, the recursive subtree sum for a directory, `0` for a path
whose stat fails.  (The walk never fails in the model, so the error
component is absent; that branch lives in `A.beforeRemove`.) -/
def beforeRemove (a : FsState) (p : Path) : Nat :=
  match findEntry a.tree p with
  | none => 0
  | some e => if e.isDir then subtreeSum a.tree p else e.size

/-- `capacityFs.Remove` over the machine state. -/
def Remove (a : FsState) (p : Path) : FsState × Option Err :=
  let size := beforeRemove a p
  match underRemove a.tree p with
  | .error e => (a, some e)
  | .ok t' => (addCapacity { a with tree := t' } (-(size : Int)), none)

/-- `capacityFs.RemoveAll` over the machine state. -/
def RemoveAll (a : FsState) (p : Path) : FsState × Option Err :=
  let size := beforeRemove a p
  (addCapacity { a with tree := underRemoveAll a.tree p } (-(size : Int)), none)

/-- `fileSize.Write`/`fileSize.WriteAt` on an open handle for the file
at `p`, folded into the machine: `n` is the byte count the underlying
write reports written (charged to the budget), `g` the net growth of the
file in the store (`g = n` for an append; an offset write overlapping
existing bytes has `g < n`, a write past the end of the file has
`g > n`). -/
def Write (a : FsState) (p : Path) (n g : Nat) : FsState × Option Err :=
  if !(hasEnoughCapacity a (n : Int)) then (a, some .notEnoughCapacity)
  else
    match underWrite a.tree p g with
    | .error e => (a, some e)
    | .ok t' => (addCapacity { a with tree := t' } (n : Int), none)

/-- `fileSize.Truncate` on an open handle for the file at `p`, folded
into the machine. -/
def Truncate (a : FsState) (p : Path) (s : Nat) : FsState × Option Err :=
  match underTruncate a.tree p s with
  | .error e => (a, some e)
  | .ok t' => (addCapacity { a with tree := t' } (-(s : Int)), none)

/-- One capacity-filesystem operation of a sequence. -/
inductive Op where
  | create (p : Path)
  | mkdir (p : Path)
  | mkdirAll (l : List String)
  | openF (p : Path)
  | write (p : Path) (n g : Nat)
  | writeAt (p : Path) (off : Int) (n g : Nat)
  | truncate (p : Path) (s : Nat)
  | remove (p : Path)
  | removeAll (p : Path)
deriving DecidableEq, Repr

/-- Run one operation. -/
def runOp (a : FsState) : Op → FsState × Option Err
  | .create p => Create a p
  | .mkdir p => Mkdir a p
  | .mkdirAll l => MkdirAll a l
  | .openF p => OpenOp a p
  | .write p n g => Write a p n g
  | .writeAt p _ n g => Write a p n g
  | .truncate p s => Truncate a p s
  | .remove p => Remove a p
  | .removeAll p => RemoveAll a p

/-- Run a sequence of operations, stopping at the first failure.  A
result of the form `(a, none)` means every operation completed
successfully. -/
def runOps : FsState → List Op → FsState × Option Err
  | a, [] => (a, none)
  | a, op :: rest =>
      match runOp a op with
      | (a', some e) => (a', some e)
      | (a', none) => runOps a' rest

/-- The operation neither truncates nor writes anything but net-new
bytes: every reported written byte grows the store by exactly one byte. -/
def opNetNew : Op → Bool
  | .truncate _ _ => false
  | .write _ n g => g == n
  | .writeAt _ _ n g => g == n
  | _ => true

/-- The operation does not truncate and does not grow the store by more
bytes than the budget is charged for (no write past end-of-file). -/
def opNoOvergrow : Op → Bool
  | .truncate _ _ => false
  | .write _ n g => g ≤ n
  | .writeAt _ _ n g => g ≤ n
  | _ => true

/-- Keys are registered at most once. -/
def NodupKeys (t : Tree) : Prop := (keys t).Nodup

/-- The store is shaped like a real filesystem: every proper prefix of a
registered path (the root `[]` included) is itself registered as a
directory. -/
def WFTree (t : Tree) : Prop :=
  ∀ pe ∈ t, ∀ i, i < pe.1.length → ∃ w ∈ t, w.1 = pe.1.take i ∧ w.2.isDir = true

/-- The state a freshly constructed `capacityFs` is in, and the C1
invariant: a well-formed store whose cached total equals a fresh
recursive scan. -/
def Synced (a : FsState) : Prop :=
  NodupKeys a.tree ∧ WFTree a.tree ∧ a.cachedSize = (sumTree a.tree : Int)

/-- The weaker C9 invariant: the cached total dominates the fresh scan
(hence is non-negative). -/
def Conserv (a : FsState) : Prop :=
  NodupKeys a.tree ∧ WFTree a.tree ∧ (sumTree a.tree : Int) ≤ a.cachedSize

instance (t : Tree) : Decidable (NodupKeys t) := by
  unfold NodupKeys; infer_instance

instance (t : Tree) : Decidable (WFTree t) := by
  unfold WFTree; infer_instance

instance (a : FsState) : Decidable (Synced a) := by
  unfold Synced; infer_instance

instance (a : FsState) : Decidable (Conserv a) := by
  unfold Conserv; infer_instance

end M

/-! ## Single-operation claims -/

/-- Claim C2: for every byte slice `p`, if `hasEnoughCapacity(len(p))`
fails, `fileSize.Write` returns `ErrNotEnoughCapacity` with `n = 0`,
performing no underlying write and no budget adjustment (the result does
not depend on the underlying write's outcome and leaves the counters
untouched); otherwise it delegates and then adjusts the cached total by
the actual byte count the underlying write reports, not by `len(p)`. -/
theorem write_precheck_then_adjust_actual (a : A.Cap) (pLen : Nat)
    (under : Nat × Option Err) :
    (A.hasEnoughCapacity a (pLen : Int) = false →
      A.fileSizeWrite a pLen under = (a, 0, some .notEnoughCapacity)) ∧
    (A.hasEnoughCapacity a (pLen : Int) = true →
      A.fileSizeWrite a pLen under = (A.addCapacity a (under.1 : Int), under.1, under.2)) := by
  constructor <;> intro h <;> simp [A.fileSizeWrite, h]

/-- Witness for `write_precheck_then_adjust_actual`: a concrete rejected
write and a concrete short write (3 of 5 requested bytes) charged 3. -/
theorem write_precheck_then_adjust_actual_witness :
    A.fileSizeWrite ⟨10, 9⟩ 5 (3, none) = (⟨10, 9⟩, 0, some .notEnoughCapacity) ∧
    A.fileSizeWrite ⟨10, 2⟩ 5 (3, none) = (⟨10, 5⟩, 3, none) := by
  constructor
  · exact (write_precheck_then_adjust_actual ⟨10, 9⟩ 5 (3, none)).1 (by decide)
  · have h := (write_precheck_then_adjust_actual ⟨10, 2⟩ 5 (3, none)).2 (by decide)
    simpa [A.addCapacity] using h

/-- Claim C8: `fileSize.WriteAt` performs exactly the capacity pre-check
and post-adjustment of `fileSize.Write`; the offset plays no role in the
capacity arithmetic. -/
theorem writeAt_same_accounting_as_write (a : A.Cap) (pLen : Nat) (off : Int)
    (under : Nat × Option Err) :
    A.fileSizeWriteAt a pLen off under = A.fileSizeWrite a pLen under := rfl

/-- Claim C5: `fileSize.Truncate` delegates first; on underlying failure
it propagates the error with no budget adjustment; on success it
unconditionally adjusts the cached total by `-newSize`. -/
theorem truncate_adjusts_by_new_size (a : A.Cap) (size : Int) (underErr : Option Err) :
    (∀ e, underErr = some e → A.fileSizeTruncate a size underErr = (a, some e)) ∧
    (underErr = none →
      A.fileSizeTruncate a size underErr =
        ({ a with cachedSize := a.cachedSize - size }, none)) := by
  constructor
  · intro e he; simp [A.fileSizeTruncate, he]
  · intro h
    have hsub : a.cachedSize + -size = a.cachedSize - size := by omega
    simp [A.fileSizeTruncate, h, A.addCapacity, hsub]

/-- Witness for `truncate_adjusts_by_new_size`: a failing truncate leaves
the counters alone; a successful `Truncate(7)` subtracts 7. -/
theorem truncate_adjusts_by_new_size_witness :
    A.fileSizeTruncate ⟨10, 9⟩ 7 (some (.underlying 1)) = (⟨10, 9⟩, some (.underlying 1)) ∧
    A.fileSizeTruncate ⟨10, 9⟩ 7 none = (⟨10, 2⟩, none) := by
  constructor
  · exact (truncate_adjusts_by_new_size ⟨10, 9⟩ 7 (some (.underlying 1))).1 _ rfl
  · have h := (truncate_adjusts_by_new_size ⟨10, 9⟩ 7 none).2 rfl
    simpa using h

/-- Claim C3: `capacityFs.Create` delegates creation first and
propagates an underlying failure unchanged (no adjustment, no file, no
compensating delete).  On success it stats the entry and checks
capacity: if the entry does not fit, it issues a compensating delete
(whose own failure is discarded — the outcome is independent of the
delete's result) and returns `ErrNotEnoughCapacity` with the counters
untouched; if it fits, it adds the statted size to the cached total and
returns the wrapped file. -/
theorem create_delegate_stat_check_compensate (a : A.Cap) (statSize : Option Int)
    (removeErr : Option Err) :
    (∀ e, A.Create a (some e) statSize removeErr = ⟨a, false, some e, false⟩) ∧
    (∀ sz, statSize = some sz → A.hasEnoughCapacity a sz = false →
      A.Create a none statSize removeErr = ⟨a, true, some .notEnoughCapacity, true⟩) ∧
    (∀ sz, statSize = some sz → A.hasEnoughCapacity a sz = true →
      A.Create a none statSize removeErr = ⟨A.addCapacity a sz, true, none, false⟩) ∧
    (∀ removeErr', A.Create a none statSize removeErr = A.Create a none statSize removeErr') := by
  refine ⟨fun e => rfl, ?_, ?_, fun _ => rfl⟩
  · intro sz hs hc; simp [A.Create, A.statAndCheckSize, hs, hc]
  · intro sz hs hc; simp [A.Create, A.statAndCheckSize, hs, hc]

/-- Witness for `create_delegate_stat_check_compensate`: the three
branches at concrete counters (limit 10, cached 4; entry sizes 7 and 5). -/
theorem create_delegate_stat_check_compensate_witness :
    A.Create ⟨10, 4⟩ (some (.underlying 3)) (some 7) none =
      ⟨⟨10, 4⟩, false, some (.underlying 3), false⟩ ∧
    A.Create ⟨10, 4⟩ none (some 7) none =
      ⟨⟨10, 4⟩, true, some .notEnoughCapacity, true⟩ ∧
    A.Create ⟨10, 4⟩ none (some 5) none = ⟨⟨10, 9⟩, true, none, false⟩ := by
  refine ⟨(create_delegate_stat_check_compensate ⟨10, 4⟩ (some 7) none).1 _, ?_, ?_⟩
  · exact (create_delegate_stat_check_compensate ⟨10, 4⟩ (some 7) none).2.1 7 rfl (by decide)
  · have h := (create_delegate_stat_check_compensate ⟨10, 4⟩ (some 5) none).2.2.1 5 rfl (by decide)
    simpa [A.addCapacity] using h

/-- Claim C10: when the `Stat` after a successful underlying `Create` or
`Mkdir` fails, the operation returns success: no capacity check, no
budget adjustment, no compensating delete — the entry stays in the
store, uncounted. -/
theorem create_mkdir_stat_failure_is_silent_success (a : A.Cap) (removeErr : Option Err) :
    A.Create a none none removeErr = ⟨a, true, none, false⟩ ∧
    A.Mkdir a none none removeErr = ⟨a, none, false⟩ :=
  ⟨rfl, rfl⟩

/-- Claim C7: `NewCapacityFs` rejects a nil wrapped filesystem and a
negative limit; otherwise it runs the size scan, propagates a scan
failure, fails with `ErrNotEnoughCapacity` when the scanned total
exceeds the limit, and on success returns an instance whose cached total
is the scanned total. -/
theorem newCapacityFs_validates_scans_and_seeds (size : Int) (scan : Int × Option Err) :
    (∀ sz sc, A.NewCapacityFs true sz sc = .error (.underlying 10)) ∧
    (size < 0 → A.NewCapacityFs false size scan = .error (.underlying 11)) ∧
    (0 ≤ size → ∀ s e, scan = (s, some e) → A.NewCapacityFs false size scan = .error e) ∧
    (0 ≤ size → ∀ s, scan = (s, none) → size < s →
      A.NewCapacityFs false size scan = .error .notEnoughCapacity) ∧
    (0 ≤ size → ∀ s, scan = (s, none) → s ≤ size →
      A.NewCapacityFs false size scan = .ok ⟨size, s⟩) := by
  refine ⟨fun sz sc => rfl, ?_, ?_, ?_, ?_⟩
  · intro h; simp [A.NewCapacityFs, h]
  · intro h s e hs
    simp [A.NewCapacityFs, hs, show ¬size < 0 by omega]
  · intro h s hs hlt
    simp [A.NewCapacityFs, hs, show ¬size < 0 by omega, hlt]
  · intro h s hs hle
    simp [A.NewCapacityFs, hs, show ¬size < 0 by omega, show ¬size < s by omega]

/-- Witness for `newCapacityFs_validates_scans_and_seeds`: every branch
at concrete arguments. -/
theorem newCapacityFs_validates_scans_and_seeds_witness :
    A.NewCapacityFs true 5 (0, none) = .error (.underlying 10) ∧
    A.NewCapacityFs false (-1) (0, none) = .error (.underlying 11) ∧
    A.NewCapacityFs false 5 (2, some (.underlying 9)) = .error (.underlying 9) ∧
    A.NewCapacityFs false 5 (6, none) = .error .notEnoughCapacity ∧
    A.NewCapacityFs false 5 (4, none) = .ok ⟨5, 4⟩ := by
  refine ⟨(newCapacityFs_validates_scans_and_seeds 5 (0, none)).1 5 (0, none), ?_, ?_, ?_, ?_⟩
  · exact (newCapacityFs_validates_scans_and_seeds (-1) (0, none)).2.1 (by decide)
  · exact (newCapacityFs_validates_scans_and_seeds 5 (2, some (.underlying 9))).2.2.1
      (by decide) 2 (.underlying 9) rfl
  · exact (newCapacityFs_validates_scans_and_seeds 5 (6, none)).2.2.2.1
      (by decide) 6 rfl (by decide)
  · exact (newCapacityFs_validates_scans_and_seeds 5 (4, none)).2.2.2.2
      (by decide) 4 rfl (by decide)

/-- Claim C4: `capacityFs.Remove` and `capacityFs.RemoveAll` first
compute the size to free via `beforeRemove` (the statted size for a
file, the recursive scan for a directory); if that computation fails
they return its error without invoking the underlying removal (the
outcome is independent of the underlying removal's result) and leave the
counters unchanged; otherwise they delegate, propagating an underlying
failure with the budget untouched, and on success decrease the cached
total by exactly the computed size. -/
theorem remove_size_first_then_delegate (a : A.Cap) (statRes : Option (Bool × Int))
    (scan : Int × Option Err) (underErr : Option Err) :
    (∀ sz, statRes = some (false, sz) → A.beforeRemove statRes scan = (sz, none)) ∧
    (∀ sz, statRes = some (true, sz) → A.beforeRemove statRes scan = scan) ∧
    (∀ sz e, A.beforeRemove statRes scan = (sz, some e) →
      A.Remove a statRes scan underErr = (a, some e) ∧
      A.RemoveAll a statRes scan underErr = (a, some e) ∧
      (∀ u', A.Remove a statRes scan u' = A.Remove a statRes scan underErr) ∧
      (∀ u', A.RemoveAll a statRes scan u' = A.RemoveAll a statRes scan underErr)) ∧
    (∀ sz e, A.beforeRemove statRes scan = (sz, none) → underErr = some e →
      A.Remove a statRes scan underErr = (a, some e) ∧
      A.RemoveAll a statRes scan underErr = (a, some e)) ∧
    (∀ sz, A.beforeRemove statRes scan = (sz, none) → underErr = none →
      A.Remove a statRes scan underErr =
        ({ a with cachedSize := a.cachedSize - sz }, none) ∧
      A.RemoveAll a statRes scan underErr =
        ({ a with cachedSize := a.cachedSize - sz }, none)) := by
  refine ⟨?_, ?_, ?_, ?_, ?_⟩
  · intro sz hs; simp [A.beforeRemove, hs]
  · intro sz hs; simp [A.beforeRemove, hs]
  · intro sz e hb
    refine ⟨?_, ?_, ?_, ?_⟩ <;>
      simp [A.Remove, A.RemoveAll, hb]
  · intro sz e hb hu
    constructor <;> simp [A.Remove, A.RemoveAll, hb, hu]
  · intro sz hb hu
    have hsub : a.cachedSize + -sz = a.cachedSize - sz := by omega
    constructor <;> simp [A.Remove, A.RemoveAll, A.addCapacity, hb, hu, hsub]

/-- Witness for `remove_size_first_then_delegate`: the file and
directory size computations, a failing scan blocking removal, a
propagated underlying failure, and a successful removal subtracting the
computed size. -/
theorem remove_size_first_then_delegate_witness :
    A.beforeRemove (some (false, 4)) (9, none) = (4, none) ∧
    A.beforeRemove (some (true, 42)) (46, none) = (46, none) ∧
    A.Remove ⟨96, 50⟩ (some (true, 42)) (3, some (.underlying 7)) none =
      (⟨96, 50⟩, some (.underlying 7)) ∧
    A.Remove ⟨96, 50⟩ (some (false, 4)) (0, none) (some (.underlying 8)) =
      (⟨96, 50⟩, some (.underlying 8)) ∧
    A.RemoveAll ⟨96, 50⟩ (some (true, 42)) (46, none) none = (⟨96, 4⟩, none) := by
  refine ⟨?_, ?_, ?_, ?_, ?_⟩
  · exact (remove_size_first_then_delegate ⟨96, 50⟩ (some (false, 4)) (9, none) none).1 4 rfl
  · exact (remove_size_first_then_delegate ⟨96, 50⟩ (some (true, 42)) (46, none) none).2.1 42 rfl
  · exact ((remove_size_first_then_delegate ⟨96, 50⟩ (some (true, 42)) (3, some (.underlying 7))
      none).2.2.1 3 (.underlying 7) rfl).1
  · exact ((remove_size_first_then_delegate ⟨96, 50⟩ (some (false, 4)) (0, none)
      (some (.underlying 8))).2.2.2.1 4 (.underlying 8) rfl rfl).1
  · have h := ((remove_size_first_then_delegate ⟨96, 50⟩ (some (true, 42)) (46, none)
      none).2.2.2.2 46 rfl rfl).2
    simpa using h

/-! ## MkdirAll -/

/-- Claim C6: `capacityFs.MkdirAll` decomposes the path into its ordered
prefix list (`possibleCombinations` joins exactly the component prefixes
with `/`); a prefix whose stat succeeds is skipped unchanged; a missing
prefix goes through this filesystem's own `Mkdir` — individually
capacity-checked and charged — and the first failure stops the loop and
is propagated.  The spec's two examples: `mkdirAll "a/b/c"` over a fresh
root with budget for exactly three directory overheads succeeds charging
`3 * 42`, and `mkdirAll "a/b/c/d"` with `a` and `a/b` present charges
only for `c` and `d`. -/
theorem mkdirAll_prefixwise_mkdir (a : M.FsState) :
    (∀ l, M.possibleCombinations l =
      (M.prefixLists l).map (fun q => String.intercalate "/" q)) ∧
    (∀ v rest e, M.findEntry a.tree v = some e →
      M.MkdirAllGo a (v :: rest) = M.MkdirAllGo a rest) ∧
    (∀ v rest a' e, M.findEntry a.tree v = none → M.Mkdir a v = (a', some e) →
      M.MkdirAllGo a (v :: rest) = (a', some e)) ∧
    (∀ v rest a', M.findEntry a.tree v = none → M.Mkdir a v = (a', none) →
      M.MkdirAllGo a (v :: rest) = M.MkdirAllGo a' rest) ∧
    (M.MkdirAll ⟨[([], ⟨true, 42⟩)], 42 + 3 * 42, 42⟩ ["a", "b", "c"] =
      (⟨[(["a", "b", "c"], ⟨true, 42⟩), (["a", "b"], ⟨true, 42⟩),
         (["a"], ⟨true, 42⟩), ([], ⟨true, 42⟩)], 42 + 3 * 42, 42 + 3 * 42⟩, none)) ∧
    (M.MkdirAll ⟨[(["a", "b"], ⟨true, 42⟩), (["a"], ⟨true, 42⟩), ([], ⟨true, 42⟩)],
        1000, 126⟩ ["a", "b", "c", "d"] =
      (⟨[(["a", "b", "c", "d"], ⟨true, 42⟩), (["a", "b", "c"], ⟨true, 42⟩),
         (["a", "b"], ⟨true, 42⟩), (["a"], ⟨true, 42⟩), ([], ⟨true, 42⟩)],
        1000, 126 + 2 * 42⟩, none)) := by
  refine ⟨?_, ?_, ?_, ?_, by decide, by decide⟩
  · intro l
    simp [M.possibleCombinations, M.prefixLists, List.map_map]
  · intro v rest e he; simp [M.MkdirAllGo, he]
  · intro v rest a' e he hm; simp [M.MkdirAllGo, he, hm]
  · intro v rest a' he hm; simp [M.MkdirAllGo, he, hm]

/-- Witness for `mkdirAll_prefixwise_mkdir`: over a concrete state, an
existing prefix is skipped and a missing one goes through `Mkdir`. -/
theorem mkdirAll_prefixwise_mkdir_witness :
    M.MkdirAllGo ⟨[(["a"], ⟨true, 42⟩), ([], ⟨true, 42⟩)], 1000, 84⟩ [["a"], ["a", "b"]] =
      M.MkdirAllGo ⟨[(["a"], ⟨true, 42⟩), ([], ⟨true, 42⟩)], 1000, 84⟩ [["a", "b"]] ∧
    M.MkdirAllGo ⟨[(["a"], ⟨true, 42⟩), ([], ⟨true, 42⟩)], 1000, 84⟩ [["a", "b"]] =
      M.MkdirAllGo ⟨[(["a", "b"], ⟨true, 42⟩), (["a"], ⟨true, 42⟩), ([], ⟨true, 42⟩)],
        1000, 126⟩ [] := by
  constructor
  · exact (mkdirAll_prefixwise_mkdir ⟨[(["a"], ⟨true, 42⟩), ([], ⟨true, 42⟩)], 1000, 84⟩).2.1
      ["a"] [["a", "b"]] ⟨true, 42⟩ (by decide)
  · exact (mkdirAll_prefixwise_mkdir ⟨[(["a"], ⟨true, 42⟩), ([], ⟨true, 42⟩)], 1000, 84⟩).2.2.2.1
      ["a", "b"] [] _ (by decide) (by decide)

/-! ## Counterexamples: the truncate accounting asymmetry -/

/-- Claim C1 counterexample: starting from a freshly scanned state (the
root alone, cached total 42 = `CalculateSizeSum`), the sequence
`Create "f"`, write 1 net-new byte, `Truncate(0)` completes successfully
within the budget, yet leaves the cached total at 43 while a fresh
recursive scan of the resulting tree gives 42: `Truncate` subtracted the
new size 0 instead of the freed byte. -/
theorem cached_total_drifts_from_scan_after_truncate :
    (M.CalculateSizeSum [([], ⟨true, 42⟩)] : Int) = 42 ∧
    M.runOps ⟨[([], ⟨true, 42⟩)], 1000, 42⟩
        [.create ["f"], .write ["f"] 1 1, .truncate ["f"] 0] =
      (⟨[(["f"], ⟨false, 0⟩), ([], ⟨true, 42⟩)], 1000, 43⟩, none) ∧
    (43 : Int) ≠ (M.CalculateSizeSum [(["f"], ⟨false, 0⟩), ([], ⟨true, 42⟩)] : Int) := by
  decide

/-- Claim C9 counterexample: starting from a freshly scanned state, the
sequence `Create "f"`, write 50 net-new bytes, then two successful
`Truncate(50)` calls (the second a no-op on the store) completes
successfully, yet drives the cached total to `-8 < 0`: each truncate
subtracts the new size 50 whether or not anything was freed. -/
theorem cached_total_goes_negative_after_truncate :
    M.runOps ⟨[([], ⟨true, 42⟩)], 1000, 42⟩
        [.create ["f"], .write ["f"] 50 50, .truncate ["f"] 50, .truncate ["f"] 50] =
      (⟨[(["f"], ⟨false, 50⟩), ([], ⟨true, 42⟩)], 1000, -8⟩, none) ∧
    (-8 : Int) < 0 := by
  decide

/-! ## Helper lemmas for the sequence invariants -/

namespace M

theorem sumTree_cons_pair (pe : Path × Entry) (t : Tree) :
    sumTree (pe :: t) = pe.2.size + sumTree t := by
  simp [sumTree]

theorem findEntry_eq_none {t : Tree} {p : Path} :
    findEntry t p = none ↔ ∀ pe ∈ t, pe.1 ≠ p := by
  induction t with
  | nil => simp [findEntry]
  | cons hd tl ih =>
    obtain ⟨q, e⟩ := hd
    by_cases hq : q = p
    · simp only [findEntry, if_pos hq]
      constructor
      · intro h; exact Option.noConfusion h
      · intro h; exact absurd hq (h (q, e) (List.mem_cons_self (q, e) tl))
    · simp only [findEntry, if_neg hq]
      rw [ih]
      constructor
      · intro h pe hpe
        rcases List.mem_cons.mp hpe with h1 | h1
        · subst h1; exact hq
        · exact h pe h1
      · intro h pe hpe
        exact h pe (List.mem_cons_of_mem _ hpe)

theorem findEntry_mem {t : Tree} {p : Path} {e : Entry} (h : findEntry t p = some e) :
    (p, e) ∈ t := by
  induction t with
  | nil => simp [findEntry] at h
  | cons hd tl ih =>
    obtain ⟨q, d⟩ := hd
    by_cases hq : q = p
    · subst hq
      simp [findEntry] at h
      subst h; exact List.mem_cons_self _ _
    · simp [findEntry, hq] at h
      exact List.mem_cons_of_mem _ (ih h)

theorem keys_cons (q : Path) (d : Entry) (tl : Tree) :
    keys ((q, d) :: tl) = q :: keys tl := rfl

theorem findEntry_of_mem_nodup {t : Tree} {p : Path} {e : Entry}
    (hnd : NodupKeys t) (h : (p, e) ∈ t) : findEntry t p = some e := by
  induction t with
  | nil => simp at h
  | cons hd tl ih =>
    obtain ⟨q, d⟩ := hd
    rw [NodupKeys, keys_cons] at hnd
    have hnd' := List.nodup_cons.mp hnd
    rcases List.mem_cons.mp h with h1 | h1
    · obtain ⟨hq, he⟩ := Prod.mk.injEq .. ▸ h1
      subst hq; subst he
      simp [findEntry]
    · have hq : q ≠ p := by
        intro hqp; subst hqp
        exact hnd'.1 (List.mem_map_of_mem Prod.fst h1)
      simp only [findEntry, if_neg hq]
      exact ih hnd'.2 h1

theorem keys_updateSize (t : Tree) (p : Path) (f : Nat → Nat) :
    keys (updateSize t p f) = keys t := by
  induction t with
  | nil => rfl
  | cons hd tl ih =>
    obtain ⟨q, e⟩ := hd
    by_cases hq : q = p
    · simp [updateSize, hq, keys]
    · simp only [updateSize, if_neg hq, keys_cons]
      rw [ih]

theorem sumTree_updateSize {t : Tree} {p : Path} {e : Entry} (f : Nat → Nat)
    (h : findEntry t p = some e) :
    sumTree (updateSize t p f) + e.size = sumTree t + f e.size := by
  induction t with
  | nil => simp [findEntry] at h
  | cons hd tl ih =>
    obtain ⟨q, d⟩ := hd
    by_cases hq : q = p
    · subst hq
      simp [findEntry] at h
      subst h
      simp [updateSize, sumTree_cons_pair]
      omega
    · simp only [findEntry, if_neg hq] at h
      have ihh := ih h
      simp only [updateSize, if_neg hq, sumTree_cons_pair]
      omega

theorem dirKeys_updateSize (t : Tree) (p : Path) (f : Nat → Nat) :
    dirKeys (updateSize t p f) = dirKeys t := by
  induction t with
  | nil => rfl
  | cons hd tl ih =>
    obtain ⟨q, d⟩ := hd
    by_cases hq : q = p
    · by_cases hd2 : d.isDir <;>
        simp [updateSize, hq, dirKeys, List.filter_cons, hd2]
    · by_cases hd2 : d.isDir <;>
        simp only [updateSize, if_neg hq, dirKeys, List.filter_cons, hd2] <;>
        simp only [dirKeys] at ih <;> simp [ih]

theorem wfTree_iff (t : Tree) :
    WFTree t ↔ ∀ q ∈ keys t, ∀ i, i < q.length → q.take i ∈ dirKeys t := by
  constructor
  · intro hwf q hq i hi
    obtain ⟨pe, hpe, rfl⟩ := List.mem_map.mp hq
    obtain ⟨w, hw, hw1, hw2⟩ := hwf pe hpe i hi
    exact List.mem_map.mpr ⟨w, List.mem_filter.mpr ⟨hw, hw2⟩, hw1⟩
  · intro h pe hpe i hi
    have hq : pe.1 ∈ keys t := List.mem_map_of_mem _ hpe
    obtain ⟨w, hw, hw1⟩ := List.mem_map.mp (h pe.1 hq i hi)
    have hmf := List.mem_filter.mp hw
    exact ⟨w, hmf.1, hw1, hmf.2⟩

theorem wfTree_updateSize {t : Tree} (hwf : WFTree t) (p : Path) (f : Nat → Nat) :
    WFTree (updateSize t p f) := by
  rw [wfTree_iff] at hwf ⊢
  rw [keys_updateSize, dirKeys_updateSize]
  exact hwf

theorem nodupKeys_updateSize {t : Tree} (hnd : NodupKeys t) (p : Path) (f : Nat → Nat) :
    NodupKeys (updateSize t p f) := by
  rw [NodupKeys, keys_updateSize]; exact hnd

theorem nodupKeys_cons {t : Tree} {p : Path} (e : Entry) (hnd : NodupKeys t)
    (h : findEntry t p = none) : NodupKeys ((p, e) :: t) := by
  rw [NodupKeys, keys_cons]
  refine List.nodup_cons.mpr ⟨?_, hnd⟩
  intro hin
  obtain ⟨pe, hpe, hfst⟩ := List.mem_map.mp hin
  exact findEntry_eq_none.mp h pe hpe hfst

theorem nodupKeys_filter {t : Tree} (q : Path × Entry → Bool) (hnd : NodupKeys t) :
    NodupKeys (t.filter q) :=
  hnd.sublist ((List.filter_sublist t).map Prod.fst)

theorem take_of_prefix {p q : Path} (h : p <+: q) : q.take p.length = p :=
  (List.prefix_iff_eq_take.mp h).symm

theorem length_lt_of_strict_prefix {p q : Path} (h : p <+: q) (hne : p ≠ q) :
    p.length < q.length := by
  rcases Nat.lt_or_ge p.length q.length with h1 | h1
  · exact h1
  · exact absurd (h.eq_of_length (Nat.le_antisymm h.length_le h1)) hne

theorem dir_at_prefix {t : Tree} (hwf : WFTree t) {pe : Path × Entry} (hmem : pe ∈ t)
    {p : Path} (hpre : p <+: pe.1) (hne : p ≠ pe.1) :
    ∃ w ∈ t, w.1 = p ∧ w.2.isDir = true := by
  have hlt := length_lt_of_strict_prefix hpre hne
  obtain ⟨w, hw, hw1, hw2⟩ := hwf pe hmem p.length hlt
  exact ⟨w, hw, by rw [hw1, take_of_prefix hpre], hw2⟩

theorem no_ext_of_findEntry_none {t : Tree} (hwf : WFTree t) {p : Path}
    (h : findEntry t p = none) : ∀ pe ∈ t, p.isPrefixOf pe.1 = false := by
  intro pe hmem
  by_contra hc
  have hpre : p <+: pe.1 :=
    List.isPrefixOf_iff_prefix.mp (Bool.not_eq_false _ ▸ hc)
  have hno := findEntry_eq_none.mp h
  by_cases hep : p = pe.1
  · exact hno pe hmem hep.symm
  · obtain ⟨w, hw, hw1, _⟩ := dir_at_prefix hwf hmem hpre hep
    exact hno w hw hw1

theorem no_strict_ext_of_file {t : Tree} (hnd : NodupKeys t) (hwf : WFTree t)
    {p : Path} {e : Entry} (hf : findEntry t p = some e) (hfile : e.isDir = false) :
    hasStrictExtension t p = false := by
  rw [hasStrictExtension, List.any_eq_false]
  intro pe hmem
  intro hc
  rw [Bool.and_eq_true] at hc
  have hpre : p <+: pe.1 := List.isPrefixOf_iff_prefix.mp hc.1
  have hne : p ≠ pe.1 := by
    intro hpe
    rw [Bool.not_eq_true', beq_eq_false_iff_ne] at hc
    exact hc.2 hpe.symm
  obtain ⟨w, hw, hw1, hw2⟩ := dir_at_prefix hwf hmem hpre hne
  have : findEntry t p = some w.2 := by
    have hw' : (p, w.2) ∈ t := by rw [← hw1]; exact hw
    exact findEntry_of_mem_nodup hnd hw'
  rw [hf] at this
  have he : e = w.2 := by injection this
  rw [he, hw2] at hfile
  cases hfile

theorem sumTree_filter_partition (t : Tree) (q : Path × Entry → Bool) :
    sumTree (t.filter q) + sumTree (t.filter (fun x => !(q x))) = sumTree t := by
  induction t with
  | nil => rfl
  | cons hd tl ih =>
    cases hq : q hd with
    | true =>
      simp [List.filter_cons, hq, sumTree_cons_pair]
      omega
    | false =>
      simp [List.filter_cons, hq, sumTree_cons_pair]
      omega

theorem sumTree_filter_key {t : Tree} (hnd : NodupKeys t) {p : Path} {e : Entry}
    (hf : findEntry t p = some e) :
    sumTree (t.filter (fun pe => pe.1 == p)) = e.size := by
  induction t with
  | nil => simp [findEntry] at hf
  | cons hd tl ih =>
    obtain ⟨q, d⟩ := hd
    rw [NodupKeys, keys_cons] at hnd
    have hnd' := List.nodup_cons.mp hnd
    by_cases hq : q = p
    · subst hq
      simp [findEntry] at hf
      subst hf
      have hnil : tl.filter (fun pe => pe.1 == q) = [] := by
        refine List.filter_eq_nil_iff.mpr ?_
        intro pe hpe hc
        have : pe.1 = q := by simpa using hc
        exact hnd'.1 (this ▸ List.mem_map_of_mem Prod.fst hpe)
      simp [List.filter_cons, hnil, sumTree_cons_pair, sumTree]
    · simp only [findEntry, if_neg hq] at hf
      have hqb : ((q, d).1 == p) = false := by simpa using hq
      simp only [List.filter_cons, hqb, ite_false, if_neg]
      exact ih hnd'.2 hf

theorem sumTree_remove_key {t : Tree} (hnd : NodupKeys t) {p : Path} {e : Entry}
    (hf : findEntry t p = some e) :
    sumTree (t.filter (fun pe => !(pe.1 == p))) + e.size = sumTree t := by
  have hpart := sumTree_filter_partition t (fun pe => pe.1 == p)
  rw [sumTree_filter_key hnd hf] at hpart
  omega

theorem sumTree_removeAll (t : Tree) (p : Path) :
    sumTree (underRemoveAll t p) + subtreeSum t p = sumTree t := by
  have hpart := sumTree_filter_partition t (fun pe => p.isPrefixOf pe.1)
  rw [underRemoveAll, subtreeSum]
  omega

theorem subtreeSum_le_sumTree (t : Tree) (p : Path) : subtreeSum t p ≤ sumTree t := by
  have := sumTree_removeAll t p
  omega

theorem wfTree_insert {t : Tree} (hwf : WFTree t) {p : Path} (e : Entry)
    (hp : parentOk t p = true) : WFTree ((p, e) :: t) := by
  obtain ⟨d, hd, hdir⟩ : ∃ d, findEntry t p.dropLast = some d ∧ d.isDir = true := by
    cases hfd : findEntry t p.dropLast with
    | none => rw [parentOk, hfd] at hp; simp at hp
    | some d =>
      rw [parentOk, hfd] at hp
      simp only [Bool.and_eq_true] at hp
      exact ⟨d, rfl, hp.2⟩
  intro pe hpe i hi
  rcases List.mem_cons.mp hpe with h1 | h1
  · subst h1
    by_cases hip : i = p.length - 1
    · refine ⟨(p.dropLast, d), List.mem_cons_of_mem _ (findEntry_mem hd), ?_, hdir⟩
      show p.dropLast = p.take i
      rw [hip, List.dropLast_eq_take]
    · have hparent_mem : (p.dropLast, d) ∈ t := findEntry_mem hd
      have hlen : i < p.dropLast.length := by
        rw [List.length_dropLast]
        simp only at hi
        omega
      obtain ⟨w, hw, hw1, hw2⟩ := hwf (p.dropLast, d) hparent_mem i hlen
      refine ⟨w, List.mem_cons_of_mem _ hw, ?_, hw2⟩
      rw [hw1]
      show (p.dropLast).take i = p.take i
      rw [List.dropLast_eq_take, List.take_take]
      congr 1
      simp only at hi
      omega
  · obtain ⟨w, hw, hw1, hw2⟩ := hwf pe h1 i hi
    exact ⟨w, List.mem_cons_of_mem _ hw, hw1, hw2⟩

theorem wfTree_filter_keyne {t : Tree} (hwf : WFTree t) {p : Path}
    (hne : hasStrictExtension t p = false) :
    WFTree (t.filter (fun pe => !(pe.1 == p))) := by
  intro pe hpe i hi
  have hmem := List.mem_filter.mp hpe
  obtain ⟨w, hw, hw1, hw2⟩ := hwf pe hmem.1 i hi
  refine ⟨w, List.mem_filter.mpr ⟨hw, ?_⟩, hw1, hw2⟩
  by_contra hc
  have hc2 : w.1 = p := by
    rw [Bool.not_eq_true, Bool.not_eq_false'] at hc
    exact beq_iff_eq.mp hc
  rw [hc2] at hw1
  have hpre : p <+: pe.1 := by
    rw [hw1]; exact List.take_prefix i pe.1
  have hlen : p.length < pe.1.length := by
    rw [hw1, List.length_take]
    omega
  have hstrict : hasStrictExtension t p = true := by
    rw [hasStrictExtension, List.any_eq_true]
    refine ⟨pe, hmem.1, ?_⟩
    rw [Bool.and_eq_true]
    refine ⟨List.isPrefixOf_iff_prefix.mpr hpre, ?_⟩
    rw [Bool.not_eq_true', beq_eq_false_iff_ne]
    intro he; rw [he] at hlen; exact absurd hlen (lt_irrefl _)
  rw [hstrict] at hne; cases hne

theorem wfTree_removeAll {t : Tree} (hwf : WFTree t) (p : Path) :
    WFTree (underRemoveAll t p) := by
  intro pe hpe i hi
  have hmem := List.mem_filter.mp hpe
  obtain ⟨w, hw, hw1, hw2⟩ := hwf pe hmem.1 i hi
  refine ⟨w, List.mem_filter.mpr ⟨hw, ?_⟩, hw1, hw2⟩
  by_contra hc
  have hc2 : p <+: w.1 := by
    rw [Bool.not_eq_true, Bool.not_eq_false'] at hc
    exact List.isPrefixOf_iff_prefix.mp hc
  have hpre : p <+: pe.1 := by
    rw [hw1] at hc2
    exact hc2.trans (List.take_prefix i pe.1)
  have hkeep := hmem.2
  rw [Bool.not_eq_true'] at hkeep
  rw [List.isPrefixOf_iff_prefix.mpr hpre] at hkeep
  cases hkeep

theorem underRemoveAll_eq_self {t : Tree} {p : Path}
    (h : ∀ pe ∈ t, p.isPrefixOf pe.1 = false) : underRemoveAll t p = t :=
  List.filter_eq_self.mpr (fun pe hpe => by simp [h pe hpe])

theorem subtreeSum_eq_zero {t : Tree} {p : Path}
    (h : ∀ pe ∈ t, p.isPrefixOf pe.1 = false) : subtreeSum t p = 0 := by
  rw [subtreeSum]
  have hnil : t.filter (fun pe => p.isPrefixOf pe.1) = [] :=
    List.filter_eq_nil_iff.mpr (fun pe hpe => by simp [h pe hpe])
  rw [hnil]; rfl

theorem subtreeSum_no_ext {t : Tree} (hnd : NodupKeys t) {p : Path} {e : Entry}
    (hf : findEntry t p = some e) (hne : hasStrictExtension t p = false) :
    subtreeSum t p = e.size := by
  have hcong : t.filter (fun pe => p.isPrefixOf pe.1) =
      t.filter (fun pe => pe.1 == p) := by
    apply List.filter_congr
    intro x hx
    by_cases hxp : x.1 = p
    · rw [hxp]
      simp [List.isPrefixOf_iff_prefix.mpr List.prefix_rfl]
    · have hnx : (p.isPrefixOf x.1 && !(x.1 == p)) = false := by
        rw [hasStrictExtension, List.any_eq_false] at hne
        have := hne x hx
        exact Bool.not_eq_true _ ▸ this
      have hb : (!(x.1 == p)) = true := by
        rw [Bool.not_eq_true', beq_eq_false_iff_ne]
        exact hxp
      rw [hb, Bool.and_true] at hnx
      rw [hnx]
      exact (beq_eq_false_iff_ne.mpr hxp).symm
  rw [subtreeSum, hcong]
  exact sumTree_filter_key hnd hf

theorem underCreate_ok {t t' : Tree} {p : Path} (h : underCreate t p = .ok t') :
    findEntry t p = none ∧ parentOk t p = true ∧ t' = (p, ⟨false, 0⟩) :: t := by
  rw [underCreate] at h
  cases hf : findEntry t p with
  | some e => rw [hf] at h; exact Except.noConfusion h
  | none =>
    rw [hf] at h
    by_cases hp : parentOk t p
    · rw [if_pos hp] at h
      injection h with h1
      exact ⟨rfl, hp, h1.symm⟩
    · rw [if_neg hp] at h; exact Except.noConfusion h

theorem underMkdir_ok {t t' : Tree} {p : Path} (h : underMkdir t p = .ok t') :
    findEntry t p = none ∧ parentOk t p = true ∧ t' = (p, ⟨true, dirSize⟩) :: t := by
  rw [underMkdir] at h
  cases hf : findEntry t p with
  | some e => rw [hf] at h; exact Except.noConfusion h
  | none =>
    rw [hf] at h
    by_cases hp : parentOk t p
    · rw [if_pos hp] at h
      injection h with h1
      exact ⟨rfl, hp, h1.symm⟩
    · rw [if_neg hp] at h; exact Except.noConfusion h

theorem underWrite_ok {t t' : Tree} {p : Path} {g : Nat} (h : underWrite t p g = .ok t') :
    ∃ e, findEntry t p = some e ∧ e.isDir = false ∧
      t' = updateSize t p (fun s => s + g) := by
  rw [underWrite] at h
  split at h
  next e heq =>
    split at h
    · exact Except.noConfusion h
    next hdir =>
      injection h with h1
      exact ⟨e, heq, Bool.not_eq_true _ ▸ hdir, h1.symm⟩
  next heq => exact Except.noConfusion h

theorem underRemove_ok {t t' : Tree} {p : Path} (h : underRemove t p = .ok t') :
    ∃ e, findEntry t p = some e ∧ (e.isDir && hasStrictExtension t p) = false ∧
      t' = t.filter (fun pe => !(pe.1 == p)) := by
  rw [underRemove] at h
  split at h
  next heq => exact Except.noConfusion h
  next e heq =>
    split at h
    · exact Except.noConfusion h
    next hcond =>
      injection h with h1
      exact ⟨e, heq, Bool.not_eq_true _ ▸ hcond, h1.symm⟩

theorem statAndCheckSize_ok {a a2 : FsState} {p : Path} {e : Entry}
    (hf : findEntry a.tree p = some e)
    (h : statAndCheckSize a p = (a2, none)) :
    hasEnoughCapacity a (e.size : Int) = true ∧
    a2.tree = a.tree ∧ a2.cachedSize = a.cachedSize + (e.size : Int) ∧
    a2.limitedSize = a.limitedSize := by
  simp only [statAndCheckSize, hf] at h
  split at h
  next hcond => exact Option.noConfusion (congrArg Prod.snd h)
  next hcond =>
    injection h with h1 _
    subst h1
    refine ⟨?_, rfl, rfl, rfl⟩
    rw [Bool.not_eq_true, Bool.not_eq_false'] at hcond
    exact hcond

theorem Create_ok {a a' : FsState} {p : Path} (h : Create a p = (a', none)) :
    findEntry a.tree p = none ∧ parentOk a.tree p = true ∧
    a'.tree = (p, ⟨false, 0⟩) :: a.tree ∧ a'.cachedSize = a.cachedSize ∧
    a'.limitedSize = a.limitedSize := by
  simp only [Create] at h
  split at h
  next e heq => simp at h
  next t' heq =>
    obtain ⟨hf, hp, ht⟩ := underCreate_ok heq
    split at h
    next a2 e heq2 => split at h <;> simp at h
    next a2 heq2 =>
      have hfind : findEntry ({ a with tree := t' } : FsState).tree p
          = some ⟨false, 0⟩ := by
        show findEntry t' p = some ⟨false, 0⟩
        rw [ht]
        simp [findEntry]
      obtain ⟨hc, h1, h2, h3⟩ := statAndCheckSize_ok hfind heq2
      injection h with h4 h5
      subst h4
      refine ⟨hf, hp, ?_, ?_, h3⟩
      · rw [h1]; exact ht
      · rw [h2]; simp

theorem Mkdir_ok {a a' : FsState} {p : Path} (h : Mkdir a p = (a', none)) :
    findEntry a.tree p = none ∧ parentOk a.tree p = true ∧
    a'.tree = (p, ⟨true, dirSize⟩) :: a.tree ∧
    a'.cachedSize = a.cachedSize + (dirSize : Int) ∧
    a'.limitedSize = a.limitedSize := by
  simp only [Mkdir] at h
  split at h
  next e heq => simp at h
  next t' heq =>
    obtain ⟨hf, hp, ht⟩ := underMkdir_ok heq
    split at h
    next a2 e heq2 => split at h <;> simp at h
    next a2 heq2 =>
      have hfind : findEntry ({ a with tree := t' } : FsState).tree p
          = some ⟨true, dirSize⟩ := by
        show findEntry t' p = some ⟨true, dirSize⟩
        rw [ht]
        simp [findEntry]
      obtain ⟨hc, h1, h2, h3⟩ := statAndCheckSize_ok hfind heq2
      injection h with h4 h5
      subst h4
      refine ⟨hf, hp, ?_, ?_, h3⟩
      · rw [h1]; exact ht
      · rw [h2]

theorem Write_ok {a a' : FsState} {p : Path} {n g : Nat}
    (h : Write a p n g = (a', none)) :
    ∃ e, findEntry a.tree p = some e ∧ e.isDir = false ∧
      a'.tree = updateSize a.tree p (fun s => s + g) ∧
      a'.cachedSize = a.cachedSize + (n : Int) ∧
      a'.limitedSize = a.limitedSize := by
  rw [Write] at h
  split at h
  · simp at h
  · split at h
    next e heq => simp at h
    next t' heq =>
      obtain ⟨e, hf, hd, ht⟩ := underWrite_ok heq
      injection h with h1 _
      subst h1
      exact ⟨e, hf, hd, by show t' = _; exact ht, rfl, rfl⟩

theorem Remove_ok {a a' : FsState} {p : Path} (h : Remove a p = (a', none)) :
    ∃ e, findEntry a.tree p = some e ∧
      (e.isDir && hasStrictExtension a.tree p) = false ∧
      a'.tree = a.tree.filter (fun pe => !(pe.1 == p)) ∧
      a'.cachedSize = a.cachedSize - (beforeRemove a p : Int) ∧
      a'.limitedSize = a.limitedSize := by
  simp only [Remove] at h
  split at h
  next e heq => simp at h
  next t' heq =>
    obtain ⟨e, hf, hde, ht⟩ := underRemove_ok heq
    injection h with h1 _
    subst h1
    refine ⟨e, hf, hde, by show t' = _; exact ht, ?_, rfl⟩
    show a.cachedSize + -(beforeRemove a p : Int) = _
    omega

theorem RemoveAll_ok {a a' : FsState} {p : Path} (h : RemoveAll a p = (a', none)) :
    a'.tree = underRemoveAll a.tree p ∧
    a'.cachedSize = a.cachedSize - (beforeRemove a p : Int) ∧
    a'.limitedSize = a.limitedSize := by
  simp only [RemoveAll] at h
  injection h with h1 _
  subst h1
  refine ⟨rfl, ?_, rfl⟩
  show a.cachedSize + -(beforeRemove a p : Int) = _
  omega

theorem OpenOp_ok {a a' : FsState} {p : Path} (h : OpenOp a p = (a', none)) :
    a' = a := by
  rw [OpenOp] at h
  split at h
  · injection h with h1 _; exact h1.symm
  · simp at h

theorem Create_delta {a a' : FsState} {p : Path}
    (hnd : NodupKeys a.tree) (hwf : WFTree a.tree) (h : Create a p = (a', none)) :
    NodupKeys a'.tree ∧ WFTree a'.tree ∧
    (sumTree a'.tree : Int) - sumTree a.tree = a'.cachedSize - a.cachedSize := by
  obtain ⟨hf, hp, ht, hc, _⟩ := Create_ok h
  refine ⟨?_, ?_, ?_⟩
  · rw [ht]; exact nodupKeys_cons _ hnd hf
  · rw [ht]; exact wfTree_insert hwf _ hp
  · rw [ht, hc, sumTree_cons_pair]
    simp

theorem Mkdir_delta {a a' : FsState} {p : Path}
    (hnd : NodupKeys a.tree) (hwf : WFTree a.tree) (h : Mkdir a p = (a', none)) :
    NodupKeys a'.tree ∧ WFTree a'.tree ∧
    (sumTree a'.tree : Int) - sumTree a.tree = a'.cachedSize - a.cachedSize := by
  obtain ⟨hf, hp, ht, hc, _⟩ := Mkdir_ok h
  refine ⟨?_, ?_, ?_⟩
  · rw [ht]; exact nodupKeys_cons _ hnd hf
  · rw [ht]; exact wfTree_insert hwf _ hp
  · rw [ht, hc, sumTree_cons_pair]
    push_cast
    ring

theorem Write_delta {a a' : FsState} {p : Path} {n g : Nat}
    (hnd : NodupKeys a.tree) (hwf : WFTree a.tree) (h : Write a p n g = (a', none)) :
    NodupKeys a'.tree ∧ WFTree a'.tree ∧
    sumTree a'.tree = sumTree a.tree + g ∧
    a'.cachedSize = a.cachedSize + (n : Int) := by
  obtain ⟨e, hf, _, ht, hc, _⟩ := Write_ok h
  refine ⟨?_, ?_, ?_, hc⟩
  · rw [ht]; exact nodupKeys_updateSize hnd p _
  · rw [ht]; exact wfTree_updateSize hwf p _
  · rw [ht]
    have hup := sumTree_updateSize (fun s => s + g) hf
    simp only at hup
    omega

theorem Remove_delta {a a' : FsState} {p : Path}
    (hnd : NodupKeys a.tree) (hwf : WFTree a.tree) (h : Remove a p = (a', none)) :
    NodupKeys a'.tree ∧ WFTree a'.tree ∧
    (sumTree a'.tree : Int) - sumTree a.tree = a'.cachedSize - a.cachedSize := by
  obtain ⟨e, hf, hde, ht, hc, _⟩ := Remove_ok h
  have hnext : hasStrictExtension a.tree p = false := by
    cases hdir : e.isDir with
    | true => rw [hdir, Bool.true_and] at hde; exact hde
    | false => exact no_strict_ext_of_file hnd hwf hf hdir
  have hsize : beforeRemove a p = e.size := by
    rw [beforeRemove, hf]
    cases hdir : e.isDir with
    | true =>
      simp only [hdir, ite_true]
      exact subtreeSum_no_ext hnd hf hnext
    | false => simp [hdir]
  have hsum := sumTree_remove_key hnd hf
  rw [hsize] at hc
  refine ⟨?_, ?_, ?_⟩
  · rw [ht]; exact nodupKeys_filter _ hnd
  · rw [ht]; exact wfTree_filter_keyne hwf hnext
  · rw [ht, hc]; omega

theorem RemoveAll_delta {a a' : FsState} {p : Path}
    (hnd : NodupKeys a.tree) (hwf : WFTree a.tree) (h : RemoveAll a p = (a', none)) :
    NodupKeys a'.tree ∧ WFTree a'.tree ∧
    (sumTree a'.tree : Int) - sumTree a.tree = a'.cachedSize - a.cachedSize := by
  obtain ⟨ht, hc, _⟩ := RemoveAll_ok h
  have hsum := sumTree_removeAll a.tree p
  have hsize : beforeRemove a p = subtreeSum a.tree p := by
    rw [beforeRemove]
    cases hf : findEntry a.tree p with
    | none =>
      exact (subtreeSum_eq_zero (no_ext_of_findEntry_none hwf hf)).symm
    | some e =>
      cases hdir : e.isDir with
      | true => simp [hdir]
      | false =>
        simp only [hdir, ite_false]
        exact (subtreeSum_no_ext hnd hf (no_strict_ext_of_file hnd hwf hf hdir)).symm
  rw [hsize] at hc
  refine ⟨?_, ?_, ?_⟩
  · rw [ht, underRemoveAll]; exact nodupKeys_filter _ hnd
  · rw [ht]; exact wfTree_removeAll hwf p
  · rw [ht, hc]; omega

theorem MkdirAllGo_delta : ∀ (ps : List Path) {a a' : FsState},
    NodupKeys a.tree → WFTree a.tree → MkdirAllGo a ps = (a', none) →
    NodupKeys a'.tree ∧ WFTree a'.tree ∧
    (sumTree a'.tree : Int) - sumTree a.tree = a'.cachedSize - a.cachedSize := by
  intro ps
  induction ps with
  | nil =>
    intro a a' hnd hwf h
    rw [MkdirAllGo] at h
    injection h with h1 _
    subst h1
    exact ⟨hnd, hwf, by omega⟩
  | cons v rest ih =>
    intro a a' hnd hwf h
    rw [MkdirAllGo] at h
    split at h
    · exact ih hnd hwf h
    · split at h
      next a1 e heq => simp at h
      next a1 heq =>
        obtain ⟨hnd1, hwf1, hds⟩ := Mkdir_delta hnd hwf heq
        obtain ⟨hnd2, hwf2, hds2⟩ := ih hnd1 hwf1 h
        exact ⟨hnd2, hwf2, by omega⟩

theorem opNetNew_overgrow {op : Op} (h : opNetNew op = true) :
    opNoOvergrow op = true := by
  cases op <;> simp_all [opNetNew, opNoOvergrow]

theorem runOp_delta {a a' : FsState} {op : Op} (hng : opNoOvergrow op = true)
    (hnd : NodupKeys a.tree) (hwf : WFTree a.tree) (h : runOp a op = (a', none)) :
    NodupKeys a'.tree ∧ WFTree a'.tree ∧
    (sumTree a'.tree : Int) - sumTree a.tree ≤ a'.cachedSize - a.cachedSize ∧
    (opNetNew op = true →
      (sumTree a'.tree : Int) - sumTree a.tree = a'.cachedSize - a.cachedSize) := by
  cases op with
  | create p =>
    obtain ⟨h1, h2, h3⟩ := Create_delta hnd hwf h
    exact ⟨h1, h2, le_of_eq h3, fun _ => h3⟩
  | mkdir p =>
    obtain ⟨h1, h2, h3⟩ := Mkdir_delta hnd hwf h
    exact ⟨h1, h2, le_of_eq h3, fun _ => h3⟩
  | mkdirAll l =>
    obtain ⟨h1, h2, h3⟩ := MkdirAllGo_delta _ hnd hwf h
    exact ⟨h1, h2, le_of_eq h3, fun _ => h3⟩
  | openF p =>
    have he := OpenOp_ok h
    subst he
    exact ⟨hnd, hwf, by omega, fun _ => by omega⟩
  | write p n g =>
    obtain ⟨h1, h2, h3, h4⟩ := Write_delta hnd hwf h
    have hg : g ≤ n := by
      simp only [opNoOvergrow] at hng
      exact of_decide_eq_true hng
    refine ⟨h1, h2, by omega, ?_⟩
    intro hnn
    have hgn : g = n := by
      simp only [opNetNew] at hnn
      exact beq_iff_eq.mp hnn
    omega
  | writeAt p off n g =>
    obtain ⟨h1, h2, h3, h4⟩ := Write_delta hnd hwf h
    have hg : g ≤ n := by
      simp only [opNoOvergrow] at hng
      exact of_decide_eq_true hng
    refine ⟨h1, h2, by omega, ?_⟩
    intro hnn
    have hgn : g = n := by
      simp only [opNetNew] at hnn
      exact beq_iff_eq.mp hnn
    omega
  | truncate p s => simp [opNoOvergrow] at hng
  | remove p =>
    obtain ⟨h1, h2, h3⟩ := Remove_delta hnd hwf h
    exact ⟨h1, h2, le_of_eq h3, fun _ => h3⟩
  | removeAll p =>
    obtain ⟨h1, h2, h3⟩ := RemoveAll_delta hnd hwf h
    exact ⟨h1, h2, le_of_eq h3, fun _ => h3⟩

theorem runOps_delta : ∀ (ops : List Op) {a a' : FsState},
    (∀ op ∈ ops, opNoOvergrow op = true) →
    NodupKeys a.tree → WFTree a.tree → runOps a ops = (a', none) →
    NodupKeys a'.tree ∧ WFTree a'.tree ∧
    (sumTree a'.tree : Int) - sumTree a.tree ≤ a'.cachedSize - a.cachedSize ∧
    ((∀ op ∈ ops, opNetNew op = true) →
      (sumTree a'.tree : Int) - sumTree a.tree = a'.cachedSize - a.cachedSize) := by
  intro ops
  induction ops with
  | nil =>
    intro a a' _ hnd hwf h
    rw [runOps] at h
    injection h with h1 _
    subst h1
    exact ⟨hnd, hwf, by omega, fun _ => by omega⟩
  | cons op rest ih =>
    intro a a' hall hnd hwf h
    rw [runOps] at h
    split at h
    next a1 e heq => simp at h
    next a1 heq =>
      obtain ⟨hnd1, hwf1, hle1, heqd1⟩ :=
        runOp_delta (hall op (List.mem_cons_self _ _)) hnd hwf heq
      obtain ⟨hnd2, hwf2, hle2, heqd2⟩ :=
        ih (fun o ho => hall o (List.mem_cons_of_mem _ ho)) hnd1 hwf1 h
      refine ⟨hnd2, hwf2, by omega, ?_⟩
      intro hnn
      have e1 := heqd1 (hnn op (List.mem_cons_self _ _))
      have e2 := heqd2 (fun o ho => hnn o (List.mem_cons_of_mem _ ho))
      omega

end M

/-! ## Sequence invariants (amended) -/

/-- Claim C1 (amended): for every sequence of capacity-filesystem
operations among create, mkdir, mkdirAll, open, write, writeAt, remove
and removeAll — truncate excluded, and every write writing only net-new
bytes (file growth equal to the byte count charged) — that completes
successfully, the cached total after the sequence equals the Size
Scanner's fresh recursive sum over the resulting tree, starting from any
synced well-formed state (such as one `NewCapacityFs` produces).  The
original claim, which also admits truncate, is refuted by
`cached_total_drifts_from_scan_after_truncate`. -/
theorem cached_total_equals_scan_net_new (a a' : M.FsState) (ops : List M.Op)
    (hops : ∀ op ∈ ops, M.opNetNew op = true)
    (hsync : M.Synced a)
    (hrun : M.runOps a ops = (a', none)) :
    a'.cachedSize = (M.CalculateSizeSum a'.tree : Int) := by
  obtain ⟨hnd, hwf, heq⟩ := hsync
  obtain ⟨_, _, _, hE⟩ :=
    M.runOps_delta ops (fun o ho => M.opNetNew_overgrow (hops o ho)) hnd hwf hrun
  have he := hE hops
  rw [M.CalculateSizeSum]
  omega

/-- Witness for `cached_total_equals_scan_net_new`: a concrete
mkdir/create/write/remove/removeAll sequence over a freshly scanned
root. -/
theorem cached_total_equals_scan_net_new_witness :
    ((⟨[([], ⟨true, 42⟩)], 1000, 42⟩ : M.FsState)).cachedSize
      = (M.CalculateSizeSum ((⟨[([], ⟨true, 42⟩)], 1000, 42⟩ : M.FsState)).tree : Int) :=
  cached_total_equals_scan_net_new ⟨[([], ⟨true, 42⟩)], 1000, 42⟩
    ⟨[([], ⟨true, 42⟩)], 1000, 42⟩
    [.mkdir ["d"], .create ["d", "f"], .write ["d", "f"] 5 5,
      .remove ["d", "f"], .removeAll ["d"]]
    (by decide) (by decide) (by decide)

/-- Claim C9 (amended): under every successfully completed sequence of
operations that contains no truncate and no write growing the store
beyond the bytes charged (no write past end-of-file), the cached total
never becomes negative — it stays at or above the true tree sum,
starting from any conservative well-formed state.  The original claim
over all operations is refuted by
`cached_total_goes_negative_after_truncate`: the truncate accounting
asymmetry breaks the pairing of decrements with prior increments. -/
theorem cached_total_nonneg_without_truncate (a a' : M.FsState) (ops : List M.Op)
    (hops : ∀ op ∈ ops, M.opNoOvergrow op = true)
    (hcons : M.Conserv a)
    (hrun : M.runOps a ops = (a', none)) :
    0 ≤ a'.cachedSize := by
  obtain ⟨hnd, hwf, hle⟩ := hcons
  obtain ⟨_, _, hE, _⟩ := M.runOps_delta ops hops hnd hwf hrun
  have hpos : (0 : Int) ≤ (M.sumTree a'.tree : Int) := Int.natCast_nonneg _
  omega

/-- Witness for `cached_total_nonneg_without_truncate`: a concrete
sequence with an overlapping `WriteAt` (3 net-new bytes of 5 charged)
followed by a remove. -/
theorem cached_total_nonneg_without_truncate_witness :
    0 ≤ ((⟨[([], ⟨true, 42⟩)], 1000, 44⟩ : M.FsState)).cachedSize :=
  cached_total_nonneg_without_truncate ⟨[([], ⟨true, 42⟩)], 1000, 42⟩
    ⟨[([], ⟨true, 42⟩)], 1000, 44⟩
    [.create ["f"], .writeAt ["f"] 0 5 3, .remove ["f"]]
    (by decide) (by decide) (by decide)

end Capacityfs
